import Mathlib

/-!
Verification of `pkg/serversets/serverset.go` (thinker0/go.serversets).

Strings are modelled as `List Char`; every byte the algorithms compare against
is ASCII, so the character-level model coincides with Go's byte-level one.
Go's `path.Clean` and `path.Split` are embedded faithfully below, as is the
`splitPaths` loop, the `ServerSet` construction, the directory-creation and
existence-check loops (over an oracle standing for the ZooKeeper connection),
and the `Entity` record with its JSON wire format.

Loops whose termination is part of what is being verified are given explicit
fuel; the top-level wrappers supply fuel that provably suffices exactly when
the Go loop terminates.
-/

set_option linter.unusedVariables false

/-- Bool predicate for "is not the path separator", mirroring Go's comparisons
of path bytes with `'/'`. -/
def notSlash (c : Char) : Bool := c ≠ '/'

/-- The backtracking scan inside the `..` case of Go `path.Clean`:
`out.w--; for out.w > dotdot && out.index(out.w) != '/' { out.w-- }`.
`backtrackW buf dd w` is the final value of `out.w` when the scan starts with
`out.w = w` over physical buffer `buf` (the scan may read positions at or above
the logical write index, which are still present in the physical buffer). -/
def backtrackW (buf : List Char) (dd : Nat) : Nat → Nat
  | 0 => 0
  | w+1 => if dd < w+1 ∧ buf.getD (w+1) ' ' ≠ '/' then backtrackW buf dd w else w+1

/-- The `..` case of Go `path.Clean`: given `rooted`, the logical output buffer
`out` and the `dotdot` barrier, returns the new `(out, dotdot)` pair.
Mirrors: `case out.w > dotdot: backtrack; case !rooted: append ".."`. -/
def dotdotCase (rooted : Bool) (out : List Char) (dd : Nat) : List Char × Nat :=
  if dd < out.length then (out.take (backtrackW out dd (out.length - 1)), dd)
  else if rooted then (out, dd)
  else
    let o := (if out.length ≠ 0 then out ++ ['/'] else out) ++ ['.', '.']
    (o, o.length)

/-- The main loop of Go `path.Clean` over the unread input `rest`, with the
output buffer `out` and barrier `dd` as state.  The element-copy inner loop of
the Go code is rendered as a `takeWhile`/`dropWhile` pair (it copies the maximal
run of non-separator bytes).  `fuel` bounds the number of iterations; since
every iteration consumes at least one input character, `fuel = rest.length`
always suffices and the `0` case is reached only with `rest = []`, where it
returns `out` exactly as the Go loop does. -/
def cleanLoopF : Nat → List Char → Bool → List Char → Nat → List Char
  | 0, _, _, out, _ => out
  | fuel+1, rest, rooted, out, dd =>
    match rest with
    | [] => out
    | c :: r =>
      if c = '/' then cleanLoopF fuel r rooted out dd
      else if c = '.' ∧ (r = [] ∨ r.head? = some '/') then cleanLoopF fuel r rooted out dd
      else if c = '.' ∧ r.head? = some '.' ∧ (r.tail = [] ∨ r.tail.head? = some '/') then
        let od := dotdotCase rooted out dd
        cleanLoopF fuel r.tail rooted od.1 od.2
      else
        cleanLoopF fuel (r.dropWhile notSlash) rooted
          ((if (rooted = true ∧ out.length ≠ 1) ∨ (rooted = false ∧ out.length ≠ 0)
              then out ++ ['/'] else out)
            ++ (c :: r.takeWhile notSlash)) dd

/-- Go `path.Clean`.  Empty input yields `"."`; a rooted input starts the loop
at read index 1 with `out = "/"`, `dotdot = 1`; an empty output buffer at the
end also yields `"."`. -/
def clean (p : List Char) : List Char :=
  match p with
  | [] => ['.']
  | c :: t =>
    if c = '/' then
      let res := cleanLoopF t.length t true ['/'] 1
      if res = [] then ['.'] else res
    else
      let res := cleanLoopF p.length p false [] 0
      if res = [] then ['.'] else res

/-- Go `path.Split`: splits after the final `'/'`; `(dir, file)` with
`dir = p[:i+1]` and `file = p[i+1:]` where `i` is the last index of `'/'`
(`i = -1`, i.e. `dir = ""`, when there is none). -/
def splitGo (p : List Char) : List Char × List Char :=
  let file := (p.reverse.takeWhile notSlash).reverse
  (p.take (p.length - file.length), file)

/-- The first loop of `splitPaths`:
`for fullPath != "/" { fullPath, last = path.Split(path.Clean(fullPath)); parts = append(parts, last) }`.
This loop does not terminate on every input (that is claim C9), so it carries
explicit fuel and returns `none` when the fuel runs out. -/
def splitLoopFuel : Nat → List Char → List (List Char) → Option (List (List Char))
  | 0, _, _ => none
  | fuel+1, fullPath, parts =>
    if fullPath = ['/'] then some parts
    else
      let c := clean fullPath
      let d := splitGo c
      splitLoopFuel fuel d.1 (parts ++ [d.2])

/-- The second loop of `splitPaths`: walks the collected `parts` from the last
appended one back to the first, rebuilding the cumulative subdirectory paths
(`base += "/" + parts[i]`). `buildResult` receives the parts already reversed
into root-first order, matching the downward Go loop. -/
def buildResult : List (List Char) → List Char → List (List Char)
  | [], _ => []
  | s :: rest, base => (base ++ '/' :: s) :: buildResult rest (base ++ '/' :: s)

/-- Go `splitPaths`.  The fuel `p.length + 2` provably suffices whenever the Go
loop terminates at all (see the theorem for C9); `none` models divergence of
the Go loop. -/
def splitPaths (p : List Char) : Option (List (List Char)) :=
  (splitLoopFuel (p.length + 2) p []).map (fun parts => buildResult parts.reverse [])

/-- Accumulator-style splitting of a path into its maximal runs of
non-separator characters ("segments").  `cur` holds the reversed current run. -/
def segsOfAux : List Char → List Char → List (List Char)
  | [], cur => if cur = [] then [] else [cur.reverse]
  | c :: r, cur =>
    if c = '/' then (if cur = [] then segsOfAux r [] else cur.reverse :: segsOfAux r [])
    else segsOfAux r (c :: cur)

/-- The (nonempty) slash-separated segments of a path, root-first.  This is the
reference notion of "segment" used to state the claims about `splitPaths`. -/
def segsOf (p : List Char) : List (List Char) := segsOfAux p []

/-- The canonical rooted path with the given segments: `"/"` for no segments,
otherwise `"/s1/s2/.../sk"`. -/
def canon (segs : List (List Char)) : List Char :=
  if segs = [] then ['/'] else (segs.map (fun s => '/' :: s)).flatten

/-- One step of segment-level cleaning: `"."` is dropped, `".."` pops the last
segment, anything else is kept.  This is the segment-level meaning of the
rooted `path.Clean` loop. -/
def segStep (acc : List (List Char)) (s : List Char) : List (List Char) :=
  if s = ['.'] then acc
  else if s = ['.', '.'] then acc.dropLast
  else acc ++ [s]

/-- Segment-level cleaning of a whole segment list (for rooted paths, where
leading `..` segments vanish against the root). -/
def cleanSegs (segs : List (List Char)) : List (List Char) := segs.foldl segStep []

/-- A path with its redundant and trailing separators removed (the
normalization named by claim C1): the canonical rooted path on the same
segments. -/
def sepNormalize (p : List Char) : List Char := canon (segsOf p)

/-- A well-formed path segment: nonempty and free of separators. -/
def goodSeg (s : List Char) : Prop := s ≠ [] ∧ ∀ c ∈ s, c ≠ '/'

/-- A plain path segment: well-formed and not one of the special names `.`
and `..` that `path.Clean` rewrites. -/
def plainSeg (s : List Char) : Prop := goodSeg s ∧ s ≠ ['.'] ∧ s ≠ ['.', '.']

instance : DecidablePred goodSeg := fun s => by unfold goodSeg; infer_instance

instance : DecidablePred plainSeg := fun s => by unfold plainSeg; infer_instance

/-- `BaseDirectory` package variable, at its default value `"/aurora"`. -/
def BaseDirectory : List Char := "/aurora".toList

/-- `MemberPrefix` package variable, at its default value `"member_"`. -/
def MemberPrefix : List Char := "member_".toList

/-- The default `BaseZnodePath` function:
`BaseDirectory + "/" + role + "/" + environment + "/" + service`. -/
def BaseZnodePath (role environment service : List Char) : List Char :=
  BaseDirectory ++ '/' :: role ++ '/' :: environment ++ '/' :: service

/-- `DefaultZKTimeout = 5 * time.Second`, in nanoseconds (`time.Duration` is a
count of nanoseconds). -/
def DefaultZKTimeout : Int := 5 * 1000000000

/-- The `ServerSet` struct. -/
structure ServerSet where
  ZKTimeout : Int
  role : List Char
  environment : List Char
  service : List Char
  zkServers : List (List Char)
deriving DecidableEq

/-- Go `New`.  A Go panic is modelled as `Except.error` carrying the panic
message built by `fmt.Errorf("service name (%s) must not contain slashes", service)`;
on the success path the struct is returned as `Except.ok`.  `New` consults no
connection capability at all: the model takes none, which reflects that the
validation happens before any network interaction. -/
def New (role environment service : List Char) (zookeepers : List (List Char)) :
    Except (List Char) ServerSet :=
  if '/' ∈ service then
    Except.error ("service name (".toList ++ service ++ ") must not contain slashes".toList)
  else
    Except.ok { ZKTimeout := DefaultZKTimeout, role := role, environment := environment,
                service := service, zkServers := zookeepers }

/-- `ZookeeperServers` accessor. -/
def ZookeeperServers (ss : ServerSet) : List (List Char) := ss.zkServers

/-- A caller overriding the exported `ZKTimeout` field after construction. -/
def SetZKTimeout (ss : ServerSet) (t : Int) : ServerSet := { ss with ZKTimeout := t }

/-- `directoryPath`: the namespace path of the set, via the (default)
`BaseZnodePath`. -/
def directoryPath (ss : ServerSet) : List Char :=
  BaseZnodePath ss.role ss.environment ss.service

/-- Outcome of one `connection.Create` call: success, the distinguished
`zk.ErrNodeExists`, or any other error (carrying its message). -/
inductive CreateResult where
  | ok : CreateResult
  | nodeExists : CreateResult
  | err : List Char → CreateResult
deriving DecidableEq

/-- The loop body of `createFullPath` over the already-split ancestor paths.
`create` is the oracle for `connection.Create`.  Returns the error result
(`none` = Go `nil`) together with the trace of paths on which `Create` was
actually attempted, in order; the function performs no operation other than
these creates (in particular nothing is ever deleted — no rollback). -/
def createLoop (create : List Char → CreateResult) :
    List (List Char) → Option (List Char) × List (List Char)
  | [] => (none, [])
  | k :: rest =>
    match create k with
    | CreateResult.err e => (some e, [k])
    | _ =>
      let r := createLoop create rest
      (r.1, k :: r.2)

/-- Go `createFullPath`: splits the directory path and runs the create loop.
The outer `Option` is `none` only if `splitPaths` diverges (never the case for
the rooted paths produced by `directoryPath`). -/
def createFullPath (create : List Char → CreateResult) (ss : ServerSet) :
    Option (Option (List Char) × List (List Char)) :=
  (splitPaths (directoryPath ss)).map (createLoop create)

/-- The loop body of `checkExistsFullPath` over the already-split ancestor
paths.  `existsOracle k = (exists, err)` is the oracle for
`connection.Exists(key)` (the Stat return is unused by the source).  Mirrors:
`if exists, _, err := connection.Exists(key); !exists || err != nil { return err }`,
and returns `nil` (= `none`) after the loop. -/
def checkLoop (existsOracle : List Char → Bool × Option (List Char)) :
    List (List Char) → Option (List Char)
  | [] => none
  | k :: rest =>
    let r := existsOracle k
    if !r.1 || r.2.isSome then r.2 else checkLoop existsOracle rest

/-- Go `checkExistsFullPath`: splits the directory path and runs the check
loop.  The result `some e` is Go's returned error `e` (`some none` = returned
`nil`, i.e. success); the outer `none` models divergence of `splitPaths`. -/
def checkExistsFullPath (existsOracle : List Char → Bool × Option (List Char))
    (ss : ServerSet) : Option (Option (List Char)) :=
  (splitPaths (directoryPath ss)).map (checkLoop existsOracle)

/-- Decimal digits of a natural number, with fuel (`n+1` always suffices). -/
def natDigitsAux : Nat → Nat → List Char
  | 0, _ => []
  | fuel+1, n =>
    if n < 10 then [Nat.digitChar n]
    else natDigitsAux fuel (n / 10) ++ [Nat.digitChar (n % 10)]

/-- Decimal representation of a natural number. -/
def natChars (n : Nat) : List Char := natDigitsAux (n+1) n

/-- Decimal representation of an integer, as Go's JSON encoder prints it. -/
def intChars (i : Int) : List Char :=
  if i < 0 then '-' :: natChars i.natAbs else natChars i.toNat

/-- The `endpoint` struct: `{host string; port int}` with JSON tags
`host`, `port`. -/
structure endpoint where
  host : List Char
  port : Int
deriving DecidableEq

/-- The `Entity` struct: the member-znode payload, mimicking the Finagle
server-set wire structure.  The Go field `AdditionalEndpoints` is a
`map[string]endpoint`; it is modelled as an association list (the JSON encoder
writes map entries in sorted key order; `newEntity` only ever builds the empty
map, for which the order is irrelevant).  An absent (`nil`) map would be a
different Go value from the empty map; in this model a `nil` map cannot arise
since `newEntity` always supplies the empty list. -/
structure Entity where
  serviceEndpoint : endpoint
  additionalEndpoints : List (List Char × endpoint)
  shard : Int
  status : List Char
deriving DecidableEq

/-- The seven endpoint status constants. -/
def statusDead : List Char := "DEAD".toList

def statusStarting : List Char := "STARTING".toList

def statusAlive : List Char := "ALIVE".toList

def statusStopping : List Char := "STOPPING".toList

def statusStopped : List Char := "STOPPED".toList

def statusWarning : List Char := "WARNING".toList

def statusUnknown : List Char := "UNKNOWN".toList

/-- Go `newEntity`: primary endpoint from the arguments, empty (present)
additional-endpoint map via `make(map[string]endpoint)`, shard 0, status
`ALIVE`. -/
def newEntity (host : List Char) (port : Int) : Entity :=
  { serviceEndpoint := { host := host, port := port },
    additionalEndpoints := [],
    shard := 0,
    status := statusAlive }

/-- JSON escaping of a single character as Go's `encoding/json` performs it
(quote, backslash, the common control characters, and the HTML-sensitive
characters `<`, `>`, `&`). -/
def jsonEscapeChar (c : Char) : List Char :=
  if c = '"' then ['\\', '"']
  else if c = '\\' then ['\\', '\\']
  else if c = '\n' then ['\\', 'n']
  else if c = '\r' then ['\\', 'r']
  else if c = '\t' then ['\\', 't']
  else if c = '<' then "\\u003c".toList
  else if c = '>' then "\\u003e".toList
  else if c = '&' then "\\u0026".toList
  else [c]

/-- A JSON string literal. -/
def jsonQuote (s : List Char) : List Char :=
  '"' :: (s.map jsonEscapeChar).flatten ++ ['"']

/-- JSON encoding of an `endpoint` per its struct tags. -/
def jsonEndpoint (ep : endpoint) : List Char :=
  "\x7b\"host\":".toList ++ jsonQuote ep.host ++ ",\"port\":".toList
    ++ intChars ep.port ++ "\x7d".toList

/-- JSON encoding of the additional-endpoints map; the empty map encodes as
`\x7b\x7d` (an empty object, not `null`). -/
def jsonAddl (m : List (List Char × endpoint)) : List Char :=
  '\x7b' :: (List.intercalate [','] (m.map (fun kv => jsonQuote kv.1 ++ [':'] ++ jsonEndpoint kv.2)))
    ++ ['\x7d']

/-- JSON encoding of an `Entity` exactly as Go's `encoding/json` marshals the
struct: fields in declaration order with their tag names. -/
def entityJSON (e : Entity) : List Char :=
  "\x7b\"serviceEndpoint\":".toList ++ jsonEndpoint e.serviceEndpoint
    ++ ",\"additionalEndpoints\":".toList ++ jsonAddl e.additionalEndpoints
    ++ ",\"shard\":".toList ++ intChars e.shard
    ++ ",\"status\":".toList ++ jsonQuote e.status ++ "\x7d".toList

/-! ## Helper lemmas: the create loop -/

theorem createLoop_all_ok (create : List Char → CreateResult) :
    ∀ paths, (∀ p ∈ paths, ∀ e, create p ≠ CreateResult.err e) →
      createLoop create paths = (none, paths) := by
  intro paths
  induction paths with
  | nil => intro _; rfl
  | cons k rest ih =>
    intro h
    have hk := h k (by simp)
    have hrest := ih (fun p hp e => h p (by simp [hp]) e)
    cases hc : create k with
    | err e => exact absurd hc (hk e)
    | ok => simp [createLoop, hc, hrest]
    | nodeExists => simp [createLoop, hc, hrest]

theorem createLoop_first_err (create : List Char → CreateResult) :
    ∀ pre q post e, (∀ p ∈ pre, ∀ e', create p ≠ CreateResult.err e') →
      create q = CreateResult.err e →
      createLoop create (pre ++ q :: post) = (some e, pre ++ [q]) := by
  intro pre
  induction pre with
  | nil => intro q post e _ hq; simp [createLoop, hq]
  | cons k rest ih =>
    intro q post e hpre hq
    have hk := hpre k (by simp)
    have hrest := ih q post e (fun p hp e' => hpre p (by simp [hp]) e') hq
    cases hc : create k with
    | err e' => exact absurd hc (hk e')
    | ok => simp [createLoop, hc, hrest]
    | nodeExists => simp [createLoop, hc, hrest]

/-! ## Claim theorems: construction, entity, hierarchy creation -/

/-- C4: for every role, environment, service and endpoint list, `New` panics
(modelled as `Except.error`) exactly when the service string contains `'/'`,
and in that case no `ServerSet` value is returned.  The model of `New` takes
no connection capability, reflecting that the check precedes any network
interaction. -/
theorem New_panics_iff_service_slash (role environment service : List Char)
    (zookeepers : List (List Char)) :
    ('/' ∈ service ↔ ∃ msg, New role environment service zookeepers = Except.error msg) ∧
    ('/' ∈ service → ∀ ss, New role environment service zookeepers ≠ Except.ok ss) := by
  refine ⟨⟨fun h => ⟨"service name (".toList ++ service ++ ") must not contain slashes".toList,
      by simp [New, h]⟩, ?_⟩, fun h ss => by simp [New, h]⟩
  rintro ⟨msg, hmsg⟩
  by_contra h
  simp [New, h] at hmsg

/-- Witness for C4 at service = "bad/name". -/
theorem New_panics_iff_service_slash_witness :
    (∃ msg, New "www".toList "prod".toList "bad/name".toList [] = Except.error msg) ∧
    ∀ ss, New "www".toList "prod".toList "bad/name".toList [] ≠ Except.ok ss :=
  ⟨(New_panics_iff_service_slash "www".toList "prod".toList "bad/name".toList []).1.mp
      (by decide),
   (New_panics_iff_service_slash "www".toList "prod".toList "bad/name".toList []).2
      (by decide)⟩

/-- C5: with the default `BaseZnodePath` and default base `"/aurora"`, the
derived path is exactly `base + "/" + role + "/" + environment + "/" + service`
(the derivation is a pure function, hence deterministic), and for
role="www", environment="prod", service="frontend" the `ServerSet` built by
`New` has directory path `/aurora/www/prod/frontend`. -/
theorem directoryPath_default_formula :
    (∀ role environment service : List Char, '/' ∉ service →
      BaseZnodePath role environment service =
        BaseDirectory ++ '/' :: role ++ '/' :: environment ++ '/' :: service) ∧
    ∃ ss, New "www".toList "prod".toList "frontend".toList ["zk1".toList] = Except.ok ss ∧
      directoryPath ss = "/aurora/www/prod/frontend".toList := by
  refine ⟨fun r e s _ => rfl, ⟨_, rfl, ?_⟩⟩
  decide

/-- Witness for C5 at the scenario triple. -/
theorem directoryPath_default_formula_witness :
    BaseZnodePath "www".toList "prod".toList "frontend".toList =
      BaseDirectory ++ '/' :: "www".toList ++ '/' :: "prod".toList
        ++ '/' :: "frontend".toList :=
  directoryPath_default_formula.1 "www".toList "prod".toList "frontend".toList (by decide)

/-- C6: `newEntity host port` has `{host, port}` as its primary endpoint, an
empty — present, not absent — additional-endpoint mapping, shard 0 and status
`"ALIVE"`; and its JSON serialization at host `10.0.0.5`, port 8080 is exactly
the Finagle wire form. -/
theorem newEntity_spec :
    (∀ host port, newEntity host port =
      { serviceEndpoint := { host := host, port := port },
        additionalEndpoints := [], shard := 0, status := "ALIVE".toList }) ∧
    entityJSON (newEntity "10.0.0.5".toList 8080) =
      "\x7b\"serviceEndpoint\":\x7b\"host\":\"10.0.0.5\",\"port\":8080\x7d,\"additionalEndpoints\":\x7b\x7d,\"shard\":0,\"status\":\"ALIVE\"\x7d".toList :=
  ⟨fun _ _ => rfl, by decide⟩

/-- C8: `New` stores identity and endpoint list as given, sets the connection
timeout to the default of 5 seconds (5e9 nanoseconds), and the timeout field
remains overridable afterwards without disturbing the stored identity. -/
theorem New_default_timeout_overridable (role environment service : List Char)
    (zookeepers : List (List Char)) (h : '/' ∉ service) :
    ∃ ss, New role environment service zookeepers = Except.ok ss ∧
      ss.ZKTimeout = DefaultZKTimeout ∧ DefaultZKTimeout = 5 * 1000000000 ∧
      ss.role = role ∧ ss.environment = environment ∧ ss.service = service ∧
      ss.zkServers = zookeepers ∧
      ∀ t, (SetZKTimeout ss t).ZKTimeout = t ∧ (SetZKTimeout ss t).role = role ∧
        (SetZKTimeout ss t).environment = environment ∧
        (SetZKTimeout ss t).service = service ∧
        (SetZKTimeout ss t).zkServers = zookeepers := by
  refine ⟨{ ZKTimeout := DefaultZKTimeout, role := role, environment := environment,
            service := service, zkServers := zookeepers }, ?_,
          rfl, rfl, rfl, rfl, rfl, rfl, fun t => ⟨rfl, rfl, rfl, rfl, rfl⟩⟩
  unfold New
  rw [if_neg h]

/-- Witness for C8 at the scenario triple. -/
theorem New_default_timeout_overridable_witness :
    ∃ ss, New "www".toList "prod".toList "frontend".toList ["zk1".toList] = Except.ok ss ∧
      ss.ZKTimeout = DefaultZKTimeout ∧ DefaultZKTimeout = 5 * 1000000000 ∧
      ss.role = "www".toList ∧ ss.environment = "prod".toList ∧
      ss.service = "frontend".toList ∧ ss.zkServers = ["zk1".toList] ∧
      ∀ t, (SetZKTimeout ss t).ZKTimeout = t ∧ (SetZKTimeout ss t).role = "www".toList ∧
        (SetZKTimeout ss t).environment = "prod".toList ∧
        (SetZKTimeout ss t).service = "frontend".toList ∧
        (SetZKTimeout ss t).zkServers = [ "zk1".toList ] :=
  New_default_timeout_overridable "www".toList "prod".toList "frontend".toList
    ["zk1".toList] (by decide)

/-- C2 (code bug): when the existence oracle answers "does not exist" with a
`nil` error on an ancestor of the namespace path, `checkExistsFullPath`
returns `nil` (success, `some none` in the model) rather than a non-nil
failure: `return err` inside `if !exists || err != nil` returns the very `nil`
error.  Evaluated here on the scenario set (role www, environment prod,
service frontend) with every existence check answering `(false, nil)`. -/
theorem checkExistsFullPath_absent_returns_nil :
    ∃ ss, New "www".toList "prod".toList "frontend".toList ["zk1".toList] = Except.ok ss ∧
      checkExistsFullPath (fun _ => (false, none)) ss = some none :=
  ⟨_, rfl, by decide⟩

/-- C3: over the ancestor chain of the namespace path, `createFullPath`
returns `nil` when every create answers success or the distinguished
"node already exists" error; and on the first create outcome that is any
other error it returns that error at once — the trace of attempted creates
stops at the failing path (the later ancestors are never attempted), and the
creates already performed are all still in the trace: the model performs no
operation besides these creates, so nothing is ever rolled back. -/
theorem createFullPath_spec (create : List Char → CreateResult) (ss : ServerSet)
    (paths : List (List Char)) (hp : splitPaths (directoryPath ss) = some paths) :
    ((∀ p ∈ paths, ∀ e, create p ≠ CreateResult.err e) →
      createFullPath create ss = some (none, paths)) ∧
    (∀ pre q post e, paths = pre ++ q :: post →
      (∀ p ∈ pre, ∀ e', create p ≠ CreateResult.err e') →
      create q = CreateResult.err e →
      createFullPath create ss = some (some e, pre ++ [q])) := by
  constructor
  · intro h
    unfold createFullPath
    rw [hp, Option.map_some', createLoop_all_ok create paths h]
  · intro pre q post e hdec hpre hq
    unfold createFullPath
    rw [hp, Option.map_some', hdec, createLoop_first_err create pre q post e hpre hq]

/-- Witness for C3 on the scenario set: an all-"nodeExists" run succeeds, and a
run whose first create fails with "boom" returns that error having attempted
only the first ancestor. -/
theorem createFullPath_spec_witness :
    createFullPath (fun _ => CreateResult.nodeExists)
        ⟨DefaultZKTimeout, "www".toList, "prod".toList, "frontend".toList, []⟩ =
      some (none, ["/aurora".toList, "/aurora/www".toList, "/aurora/www/prod".toList,
        "/aurora/www/prod/frontend".toList]) ∧
    createFullPath (fun _ => CreateResult.err "boom".toList)
        ⟨DefaultZKTimeout, "www".toList, "prod".toList, "frontend".toList, []⟩ =
      some (some "boom".toList, ["/aurora".toList]) :=
  ⟨(createFullPath_spec (fun _ => CreateResult.nodeExists)
      ⟨DefaultZKTimeout, "www".toList, "prod".toList, "frontend".toList, []⟩
      ["/aurora".toList, "/aurora/www".toList, "/aurora/www/prod".toList,
        "/aurora/www/prod/frontend".toList] (by decide)).1
      (fun p _ e h => CreateResult.noConfusion h),
   (createFullPath_spec (fun _ => CreateResult.err "boom".toList)
      ⟨DefaultZKTimeout, "www".toList, "prod".toList, "frontend".toList, []⟩
      ["/aurora".toList, "/aurora/www".toList, "/aurora/www/prod".toList,
        "/aurora/www/prod/frontend".toList] (by decide)).2
      [] "/aurora".toList
      ["/aurora/www".toList, "/aurora/www/prod".toList, "/aurora/www/prod/frontend".toList]
      "boom".toList rfl (fun p hp => absurd hp (List.not_mem_nil p)) rfl⟩

/-- C7: `splitPaths` on the root path `"/"` yields the empty sequence (the
loop body never runs). -/
theorem splitPaths_root_empty : splitPaths "/".toList = some [] := rfl

/-- C1 counterexample: the absolute path `"//"` consists only of separators,
so it has zero segments, and its normalization (redundant separators removed)
is `"/"`; yet `splitPaths "//"` returns one entry, `["/"]`, not zero.  The
claim's entry count `k` therefore fails on paths whose normalization is the
bare root, and (separately) on paths with `"."`/`".."` segments, which
`path.Clean` rewrites. -/
theorem splitPaths_doubleSlash_counterexample :
    (segsOf "//".toList).length = 0 ∧ sepNormalize "//".toList = "/".toList ∧
    splitPaths "//".toList = some ["/".toList] := by decide

/-! ## Helper lemmas: segments -/

theorem notSlash_eq_true {c : Char} : notSlash c = true ↔ c ≠ '/' := by
  simp [notSlash]

theorem notSlash_eq_false {c : Char} : notSlash c = false ↔ c = '/' := by
  simp [notSlash]


theorem dropWhile_length_le (l : List Char) :
    (l.dropWhile notSlash).length ≤ l.length := by
  induction l with
  | nil => simp
  | cons c r ih =>
    rw [List.dropWhile_cons]
    by_cases h : notSlash c = true
    · rw [if_pos h]; exact le_trans ih (by simp)
    · rw [if_neg h]

theorem segsOf_nil : segsOf [] = [] := rfl

theorem segsOf_cons_slash (r : List Char) : segsOf ('/' :: r) = segsOf r := by
  simp [segsOf, segsOfAux]

theorem segsOfAux_acc (r : List Char) : ∀ cur, cur ≠ [] →
    segsOfAux r cur = (cur.reverse ++ r.takeWhile notSlash) :: segsOfAux (r.dropWhile notSlash) [] := by
  induction r with
  | nil => intro cur hc; simp [segsOfAux, hc]
  | cons c r ih =>
    intro cur hc
    by_cases h : c = '/'
    · subst h
      simp [segsOfAux, hc, List.takeWhile_cons, List.dropWhile_cons, notSlash]
    · have hns : notSlash c = true := notSlash_eq_true.mpr h
      simp only [segsOfAux, if_neg h, List.takeWhile_cons, List.dropWhile_cons, hns, if_pos rfl]
      rw [ih (c :: cur) (by simp)]
      simp

theorem segsOf_cons {c : Char} (r : List Char) (h : c ≠ '/') :
    segsOf (c :: r) = (c :: r.takeWhile notSlash) :: segsOf (r.dropWhile notSlash) := by
  show segsOfAux (c :: r) [] = _
  simp only [segsOfAux, if_neg h]
  rw [segsOfAux_acc r [c] (by simp)]
  rfl

theorem takeWhile_all {t : List Char} (h : ∀ c ∈ t, c ≠ '/') : t.takeWhile notSlash = t := by
  induction t with
  | nil => rfl
  | cons c r ih =>
    rw [List.takeWhile_cons, if_pos (notSlash_eq_true.mpr (h c (by simp)))]
    rw [ih (fun x hx => h x (by simp [hx]))]

theorem dropWhile_all {t : List Char} (h : ∀ c ∈ t, c ≠ '/') : t.dropWhile notSlash = [] := by
  induction t with
  | nil => rfl
  | cons c r ih =>
    rw [List.dropWhile_cons, if_pos (notSlash_eq_true.mpr (h c (by simp)))]
    exact ih (fun x hx => h x (by simp [hx]))

theorem takeWhile_head_slash {q : List Char} (h : q = [] ∨ q.head? = some '/') :
    q.takeWhile notSlash = [] := by
  rcases h with h | h
  · subst h; rfl
  · cases q with
    | nil => rfl
    | cons c r =>
      simp only [List.head?_cons, Option.some_inj] at h
      subst h
      simp [List.takeWhile_cons, notSlash]

theorem dropWhile_head_slash {q : List Char} (h : q = [] ∨ q.head? = some '/') :
    q.dropWhile notSlash = q := by
  rcases h with h | h
  · subst h; rfl
  · cases q with
    | nil => rfl
    | cons c r =>
      simp only [List.head?_cons, Option.some_inj] at h
      subst h
      simp [List.dropWhile_cons, notSlash]

theorem takeWhile_all_append {t : List Char} (q : List Char) (h : ∀ c ∈ t, c ≠ '/') :
    (t ++ q).takeWhile notSlash = t ++ q.takeWhile notSlash := by
  induction t with
  | nil => rfl
  | cons c r ih =>
    rw [List.cons_append, List.takeWhile_cons, if_pos (notSlash_eq_true.mpr (h c (by simp)))]
    rw [ih (fun x hx => h x (by simp [hx]))]
    rfl

theorem dropWhile_all_append {t : List Char} (q : List Char) (h : ∀ c ∈ t, c ≠ '/') :
    (t ++ q).dropWhile notSlash = q.dropWhile notSlash := by
  induction t with
  | nil => rfl
  | cons c r ih =>
    rw [List.cons_append, List.dropWhile_cons, if_pos (notSlash_eq_true.mpr (h c (by simp)))]
    exact ih (fun x hx => h x (by simp [hx]))

theorem segsOf_seg_prefix {s : List Char} (q : List Char) (hs : goodSeg s)
    (hq : q = [] ∨ q.head? = some '/') : segsOf (s ++ q) = s :: segsOf q := by
  obtain ⟨hne, hns⟩ := hs
  cases s with
  | nil => exact absurd rfl hne
  | cons c t =>
    rw [List.cons_append, segsOf_cons _ (hns c (by simp))]
    have ht : ∀ x ∈ t, x ≠ '/' := fun x hx => hns x (by simp [hx])
    rw [takeWhile_all_append q ht, takeWhile_head_slash hq,
        dropWhile_all_append q ht, dropWhile_head_slash hq]
    simp

theorem takeWhile_append_slash (y : List Char) : ∀ x : List Char,
    (x ++ '/' :: y).takeWhile notSlash = x.takeWhile notSlash := by
  intro x
  induction x with
  | nil => simp [List.takeWhile_cons, notSlash]
  | cons c r ih =>
    by_cases h : c = '/'
    · subst h; simp [List.takeWhile_cons, notSlash]
    · rw [List.cons_append, List.takeWhile_cons, List.takeWhile_cons, if_pos, if_pos, ih]
      · exact notSlash_eq_true.mpr h
      · exact notSlash_eq_true.mpr h

theorem dropWhile_append_slash (y : List Char) : ∀ x : List Char,
    (x ++ '/' :: y).dropWhile notSlash = x.dropWhile notSlash ++ '/' :: y := by
  intro x
  induction x with
  | nil => simp [List.dropWhile_cons, notSlash]
  | cons c r ih =>
    by_cases h : c = '/'
    · subst h; simp [List.dropWhile_cons, notSlash]
    · rw [List.cons_append, List.dropWhile_cons, List.dropWhile_cons, if_pos, if_pos, ih]
      · exact notSlash_eq_true.mpr h
      · exact notSlash_eq_true.mpr h

theorem segsOf_append_slash (y : List Char) : ∀ x : List Char,
    segsOf (x ++ '/' :: y) = segsOf x ++ segsOf y := by
  have key : ∀ n : Nat, ∀ x : List Char, x.length ≤ n →
      segsOf (x ++ '/' :: y) = segsOf x ++ segsOf y := by
    intro n
    induction n with
    | zero =>
      intro x hx
      rw [List.length_eq_zero.mp (Nat.le_zero.mp hx)]
      simp [segsOf_cons_slash, segsOf_nil]
    | succ n ih =>
      intro x hx
      cases x with
      | nil => simp [segsOf_cons_slash, segsOf_nil]
      | cons c r =>
        by_cases h : c = '/'
        · subst h
          rw [List.cons_append, segsOf_cons_slash, segsOf_cons_slash]
          exact ih r (by simpa using hx)
        · rw [List.cons_append, segsOf_cons _ h, segsOf_cons _ h,
              takeWhile_append_slash, dropWhile_append_slash]
          rw [ih (r.dropWhile notSlash)
                (le_trans (dropWhile_length_le r)
                  (by simpa using hx))]
          simp
  exact fun x => key x.length x le_rfl

theorem segsOf_good : ∀ p : List Char, ∀ s ∈ segsOf p, goodSeg s := by
  have key : ∀ n : Nat, ∀ p : List Char, p.length ≤ n → ∀ s ∈ segsOf p, goodSeg s := by
    intro n
    induction n with
    | zero =>
      intro p hp
      rw [List.length_eq_zero.mp (Nat.le_zero.mp hp)]
      intro s hs
      simp [segsOf_nil] at hs
    | succ n ih =>
      intro p hp
      cases p with
      | nil => intro s hs; simp [segsOf_nil] at hs
      | cons c r =>
        by_cases h : c = '/'
        · subst h
          rw [segsOf_cons_slash]
          exact ih r (by simpa using hp)
        · rw [segsOf_cons _ h]
          intro s hs
          rcases List.mem_cons.mp hs with rfl | hs
          · refine ⟨by simp, ?_⟩
            intro x hx
            rcases List.mem_cons.mp hx with rfl | hx
            · exact h
            · exact notSlash_eq_true.mp (List.mem_takeWhile_imp hx)
          · exact ih (r.dropWhile notSlash)
              (le_trans (dropWhile_length_le r)
                (by simpa using hp)) s hs
  exact fun p => key p.length p le_rfl

theorem segsOf_single {s : List Char} (hs : goodSeg s) : segsOf s = [s] := by
  obtain ⟨hne, hns⟩ := hs
  cases s with
  | nil => exact absurd rfl hne
  | cons c t =>
    rw [segsOf_cons _ (hns c (by simp))]
    rw [takeWhile_all (fun x hx => hns x (by simp [hx])),
        dropWhile_all (fun x hx => hns x (by simp [hx])), segsOf_nil]

theorem segsOf_length_le : ∀ p : List Char, (segsOf p).length ≤ p.length := by
  have key : ∀ n : Nat, ∀ p : List Char, p.length ≤ n → (segsOf p).length ≤ p.length := by
    intro n
    induction n with
    | zero =>
      intro p hp
      rw [List.length_eq_zero.mp (Nat.le_zero.mp hp)]
      simp [segsOf_nil]
    | succ n ih =>
      intro p hp
      cases p with
      | nil => simp [segsOf_nil]
      | cons c r =>
        by_cases h : c = '/'
        · subst h
          rw [segsOf_cons_slash]
          calc (segsOf r).length ≤ r.length :=
                ih r (by simpa using hp)
            _ ≤ ('/' :: r).length := by simp
        · rw [segsOf_cons _ h]
          have h1 : (segsOf (r.dropWhile notSlash)).length ≤ (r.dropWhile notSlash).length :=
            ih (r.dropWhile notSlash)
              (le_trans (dropWhile_length_le r)
                (by simpa using hp))
          have h2 : (r.dropWhile notSlash).length ≤ r.length := dropWhile_length_le r
          simp only [List.length_cons]
          omega
  exact fun p => key p.length p le_rfl

/-! ## Helper lemmas: canonical paths -/

theorem canon_nil : canon [] = ['/'] := rfl

theorem canon_cons (s : List Char) (rest : List (List Char)) :
    canon (s :: rest) = '/' :: s ++ (rest.map (fun t => '/' :: t)).flatten := by
  simp [canon]

theorem canon_single (s : List Char) : canon [s] = '/' :: s := by
  simp [canon]

theorem canon_ne_nil (segs : List (List Char)) : canon segs ≠ [] := by
  cases segs with
  | nil => simp [canon_nil]
  | cons s rest => simp [canon_cons]

theorem canon_head (segs : List (List Char)) : (canon segs).head? = some '/' := by
  cases segs with
  | nil => rfl
  | cons s rest => simp [canon_cons]

theorem canon_exists_cons (segs : List (List Char)) : ∃ cs, canon segs = '/' :: cs := by
  cases segs with
  | nil => exact ⟨[], rfl⟩
  | cons s rest => exact ⟨s ++ (rest.map (fun t => '/' :: t)).flatten, canon_cons s rest⟩

theorem canon_append (segs : List (List Char)) (e : List Char) :
    canon (segs ++ [e]) = canon segs ++ (if segs = [] then [] else ['/']) ++ e := by
  cases segs with
  | nil => simp [canon_single, canon_nil]
  | cons s rest =>
    rw [if_neg (by simp)]
    simp only [canon, List.cons_append, if_neg (by simp : ¬s :: (rest ++ [e]) = []),
      if_neg (by simp : ¬s :: rest = []), List.map_append, List.map_cons,
      List.flatten_append, List.map_nil]
    simp

theorem canon_length_lt {segs : List (List Char)} (h : ∀ s ∈ segs, goodSeg s)
    (hne : segs ≠ []) : 1 < (canon segs).length := by
  cases segs with
  | nil => exact absurd rfl hne
  | cons s rest =>
    have hs : s ≠ [] := (h s (by simp)).1
    rw [canon_cons]
    simp only [List.length_cons, List.length_append]
    cases s with
    | nil => exact absurd rfl hs
    | cons a t => simp only [List.length_cons]; omega

theorem canon_length_ne_one {segs : List (List Char)} (h : ∀ s ∈ segs, goodSeg s) :
    (canon segs).length ≠ 1 ↔ segs ≠ [] := by
  constructor
  · intro hlen hseg
    subst hseg
    simp [canon_nil] at hlen
  · intro hseg
    exact Nat.ne_of_gt (canon_length_lt h hseg)

/-! ## Helper lemmas: the ".." backtracking scan -/

theorem getD_concat (l : List Char) (x : Char) : (l ++ [x]).getD l.length ' ' = x := by
  induction l with
  | nil => rfl
  | cons a t ih =>
    simp only [List.cons_append, List.length_cons, List.getD_cons_succ]
    exact ih

theorem backtrackW_append (buf extra : List Char) (dd : Nat) :
    ∀ w, w < buf.length → backtrackW (buf ++ extra) dd w = backtrackW buf dd w := by
  intro w
  induction w with
  | zero => intro _; rfl
  | succ w ih =>
    intro hw
    have hget : (buf ++ extra).getD (w+1) ' ' = buf.getD (w+1) ' ' :=
      List.getD_append buf extra ' ' (w+1) hw
    simp only [backtrackW, hget]
    by_cases hc : dd < w + 1 ∧ buf.getD (w+1) ' ' ≠ '/'
    · rw [if_pos hc, if_pos hc, ih (Nat.lt_of_succ_lt hw)]
    · rw [if_neg hc, if_neg hc]

theorem backtrackW_stops (b : List Char) (hb : ∀ c ∈ b, c ≠ '/') :
    ∀ pre : List Char, ∀ dd, dd ≤ pre.length →
      backtrackW ((pre ++ ['/']) ++ b) dd (pre.length + b.length) = pre.length := by
  induction b using List.reverseRecOn with
  | nil =>
    intro pre dd hdd
    cases hp : pre.length with
    | zero => simp [backtrackW, hp]
    | succ w =>
      have hget : (pre ++ ['/']).getD (w+1) ' ' = '/' := by
        have hw : w + 1 = pre.length := hp.symm
        rw [hw, getD_concat]
      simp only [List.append_nil, List.length_nil, Nat.add_zero, hp, backtrackW, hget]
      simp
  | append_singleton b' x ih =>
    intro pre dd hdd
    have hx : x ≠ '/' := hb x (by simp)
    have hb' : ∀ c ∈ b', c ≠ '/' := fun c hc => hb c (by simp [hc])
    have hassoc : (pre ++ ['/']) ++ (b' ++ [x]) = ((pre ++ ['/']) ++ b') ++ [x] := by
      simp
    have hleneq : pre.length + b'.length + 1 = ((pre ++ ['/']) ++ b').length := by
      simp only [List.length_append, List.length_cons, List.length_nil]
      omega
    have hget : (((pre ++ ['/']) ++ b') ++ [x]).getD (pre.length + b'.length + 1) ' ' = x := by
      rw [hleneq, getD_concat]
    have hw : pre.length + (b' ++ [x]).length = (pre.length + b'.length) + 1 := by
      simp only [List.length_append, List.length_cons, List.length_nil]
      omega
    rw [hassoc, hw]
    simp only [backtrackW, hget]
    rw [if_pos ⟨by omega, hx⟩]
    rw [backtrackW_append ((pre ++ ['/']) ++ b') [x] dd (pre.length + b'.length)
      (by simp only [List.length_append, List.length_cons, List.length_nil]; omega)]
    exact ih hb' pre dd hdd

theorem backtrackW_root (b : List Char) (hb : ∀ c ∈ b, c ≠ '/') (hne : b ≠ []) :
    backtrackW ('/' :: b) 1 b.length = 1 := by
  induction b using List.reverseRecOn with
  | nil => exact absurd rfl hne
  | append_singleton b' x ih =>
    have hx : x ≠ '/' := hb x (by simp)
    have hb' : ∀ c ∈ b', c ≠ '/' := fun c hc => hb c (by simp [hc])
    by_cases hbn : b' = []
    · subst hbn
      simp [backtrackW]
    · have hlen : (b' ++ [x]).length = b'.length + 1 := by simp
      have hsplit : ('/' :: (b' ++ [x])) = ('/' :: b') ++ [x] := by simp
      have hget : ('/' :: (b' ++ [x])).getD (b'.length + 1) ' ' = x := by
        have : b'.length + 1 = ('/' :: b').length := by simp
        rw [hsplit, this, getD_concat]
      rw [hlen]
      simp only [backtrackW, hget]
      rw [if_pos ⟨by have := List.length_pos.mpr hbn; omega, hx⟩]
      rw [hsplit, backtrackW_append ('/' :: b') [x] 1 b'.length (by simp)]
      exact ih hb' hbn

theorem backtrack_canon {acc : List (List Char)} {b : List Char}
    (hacc : ∀ s ∈ acc, goodSeg s) (hb : goodSeg b) :
    (canon (acc ++ [b])).take
      (backtrackW (canon (acc ++ [b])) 1 ((canon (acc ++ [b])).length - 1)) = canon acc := by
  by_cases han : acc = []
  · subst han
    simp only [List.nil_append]
    rw [canon_single]
    have hlen : ('/' :: b).length - 1 = b.length := by simp
    rw [hlen, backtrackW_root b hb.2 hb.1]
    rfl
  · rw [canon_append, if_neg han]
    have hassoc : canon acc ++ ['/'] ++ b = (canon acc ++ ['/']) ++ b := by simp
    have hlen : ((canon acc ++ ['/']) ++ b).length - 1 = (canon acc).length + b.length := by
      simp only [List.length_append, List.length_cons, List.length_nil]
      omega
    have hpos : 1 ≤ (canon acc).length := by
      have := canon_ne_nil acc
      cases hc : canon acc with
      | nil => exact absurd hc this
      | cons u v => simp
    rw [hassoc, hlen, backtrackW_stops b hb.2 (canon acc) 1 hpos]
    rw [List.append_assoc]
    exact List.take_left (canon acc) ('/' :: b)

/-! ## Helper lemmas: segment-level cleaning -/

theorem mem_dropLast {α : Type} {l : List α} {s : α} (h : s ∈ l.dropLast) : s ∈ l := by
  rw [List.dropLast_eq_take] at h
  exact List.take_subset _ _ h

theorem plainSeg_good {s : List Char} (h : plainSeg s) : goodSeg s := h.1

theorem foldl_segStep_plain : ∀ l : List (List Char), (∀ s ∈ l, goodSeg s) →
    ∀ acc, (∀ s ∈ acc, plainSeg s) → ∀ s ∈ l.foldl segStep acc, plainSeg s := by
  intro l
  induction l with
  | nil => intro _ acc hacc; simpa using hacc
  | cons s l ih =>
    intro hl acc hacc
    rw [List.foldl_cons]
    refine ih (fun t ht => hl t (by simp [ht])) (segStep acc s) ?_
    intro t ht
    unfold segStep at ht
    by_cases h1 : s = ['.']
    · rw [if_pos h1] at ht; exact hacc t ht
    · rw [if_neg h1] at ht
      by_cases h2 : s = ['.', '.']
      · rw [if_pos h2] at ht; exact hacc t (mem_dropLast ht)
      · rw [if_neg h2] at ht
        rcases List.mem_append.mp ht with ht | ht
        · exact hacc t ht
        · rcases List.mem_singleton.mp ht with rfl
          exact ⟨hl t (by simp), h1, h2⟩

theorem cleanSegs_plain (p : List Char) : ∀ s ∈ cleanSegs (segsOf p), plainSeg s :=
  foldl_segStep_plain (segsOf p) (segsOf_good p) [] (by simp)

theorem foldl_segStep_plain_id : ∀ l : List (List Char), (∀ s ∈ l, plainSeg s) →
    ∀ acc, l.foldl segStep acc = acc ++ l := by
  intro l
  induction l with
  | nil => intro _ acc; simp
  | cons s l ih =>
    intro hl acc
    rw [List.foldl_cons]
    have hs := hl s (by simp)
    have hstep : segStep acc s = acc ++ [s] := by
      unfold segStep
      rw [if_neg hs.2.1, if_neg hs.2.2]
    rw [hstep, ih (fun t ht => hl t (by simp [ht])) (acc ++ [s])]
    simp

theorem cleanSegs_plain_eq {l : List (List Char)} (h : ∀ s ∈ l, plainSeg s) :
    cleanSegs l = l := by
  unfold cleanSegs
  rw [foldl_segStep_plain_id l h []]
  simp

theorem foldl_segStep_length : ∀ l : List (List Char), ∀ acc,
    (l.foldl segStep acc).length ≤ acc.length + l.length := by
  intro l
  induction l with
  | nil => intro acc; simp
  | cons s l ih =>
    intro acc
    rw [List.foldl_cons]
    have hstep : (segStep acc s).length ≤ acc.length + 1 := by
      unfold segStep
      by_cases h1 : s = ['.']
      · rw [if_pos h1]; omega
      · rw [if_neg h1]
        by_cases h2 : s = ['.', '.']
        · rw [if_pos h2]; rw [List.length_dropLast]; omega
        · rw [if_neg h2]; simp
    calc (l.foldl segStep (segStep acc s)).length ≤ (segStep acc s).length + l.length := ih _
      _ ≤ acc.length + (s :: l).length := by simp only [List.length_cons]; omega

theorem cleanSegs_length_le (l : List (List Char)) : (cleanSegs l).length ≤ l.length := by
  have := foldl_segStep_length l []
  simpa using this

/-! ## Helper lemmas: segments of canonical paths -/

theorem segsOf_flatten_aux : ∀ segs : List (List Char), (∀ s ∈ segs, goodSeg s) →
    ∀ t : List Char, (t = [] ∨ t.head? = some '/') →
      segsOf ((segs.map (fun s => '/' :: s)).flatten ++ t) = segs ++ segsOf t := by
  intro segs
  induction segs with
  | nil => intro _ t _; simp
  | cons s rest ih =>
    intro h t ht
    have hs : goodSeg s := h s (by simp)
    have hrest : ∀ u ∈ rest, goodSeg u := fun u hu => h u (by simp [hu])
    have hflat : ((rest.map (fun u => '/' :: u)).flatten ++ t) = [] ∨
        ((rest.map (fun u => '/' :: u)).flatten ++ t).head? = some '/' := by
      cases rest with
      | nil => simpa using ht
      | cons u us => right; simp
    rw [List.map_cons, List.flatten_cons, List.cons_append, List.cons_append,
        segsOf_cons_slash, List.append_assoc,
        segsOf_seg_prefix _ hs hflat,
        ih hrest t ht]
    simp

theorem segsOf_canon {segs : List (List Char)} (h : ∀ s ∈ segs, goodSeg s) :
    segsOf (canon segs) = segs := by
  cases hs : segs with
  | nil => rfl
  | cons s rest =>
    rw [← hs]
    have hne : segs ≠ [] := by rw [hs]; simp
    rw [canon, if_neg hne, ← List.append_nil ((segs.map (fun s => '/' :: s)).flatten),
        segsOf_flatten_aux segs h [] (Or.inl rfl)]
    simp [segsOf_nil]

theorem segsOf_canon_slash {segs : List (List Char)} (h : ∀ s ∈ segs, goodSeg s) :
    segsOf (canon segs ++ ['/']) = segs := by
  cases hs : segs with
  | nil => rfl
  | cons s rest =>
    rw [← hs]
    have hne : segs ≠ [] := by rw [hs]; simp
    rw [canon, if_neg hne, segsOf_flatten_aux segs h ['/'] (Or.inr rfl)]
    simp [segsOf_cons_slash, segsOf_nil]

/-! ## Helper lemmas: splitting canonical paths -/

theorem splitGo_canon {bs : List (List Char)} {b : List Char}
    (hbs : ∀ s ∈ bs, goodSeg s) (hb : goodSeg b) :
    splitGo (canon (bs ++ [b])) = (canon bs ++ (if bs = [] then [] else ['/']), b) := by
  have hX : canon (bs ++ [b]) = (canon bs ++ (if bs = [] then [] else ['/'])) ++ b :=
    canon_append bs b
  have hrev : (canon bs ++ (if bs = [] then [] else ['/'])).reverse = [] ∨
      ((canon bs ++ (if bs = [] then [] else ['/'])).reverse).head? = some '/' := by
    by_cases h : bs = []
    · subst h; right; rfl
    · rw [if_neg h]; right; rw [List.reverse_append]; rfl
  have hfile : ((canon (bs ++ [b])).reverse.takeWhile notSlash).reverse = b := by
    rw [hX, List.reverse_append,
        takeWhile_all_append _ (fun c hc => hb.2 c (List.mem_reverse.mp hc)),
        takeWhile_head_slash hrev]
    simp
  show ((canon (bs ++ [b])).take
      ((canon (bs ++ [b])).length - (((canon (bs ++ [b])).reverse.takeWhile notSlash).reverse).length),
    ((canon (bs ++ [b])).reverse.takeWhile notSlash).reverse) = _
  rw [hfile, hX]
  have hlen : ((canon bs ++ (if bs = [] then [] else ['/'])) ++ b).length - b.length =
      (canon bs ++ (if bs = [] then [] else ['/'])).length := by
    simp only [List.length_append]
    omega
  rw [hlen, List.take_left]

/-! ## Helper lemmas: unfolding the Clean loop -/

theorem cleanLoopF_nil (fuel : Nat) (rooted : Bool) (out : List Char) (dd : Nat) :
    cleanLoopF fuel [] rooted out dd = out := by
  cases fuel <;> rfl

theorem cleanLoopF_cons (fuel : Nat) (c : Char) (r : List Char) (rooted : Bool)
    (out : List Char) (dd : Nat) :
    cleanLoopF (fuel+1) (c :: r) rooted out dd =
      if c = '/' then cleanLoopF fuel r rooted out dd
      else if c = '.' ∧ (r = [] ∨ r.head? = some '/') then cleanLoopF fuel r rooted out dd
      else if c = '.' ∧ r.head? = some '.' ∧ (r.tail = [] ∨ r.tail.head? = some '/') then
        cleanLoopF fuel r.tail rooted (dotdotCase rooted out dd).1 (dotdotCase rooted out dd).2
      else cleanLoopF fuel (r.dropWhile notSlash) rooted
          ((if (rooted = true ∧ out.length ≠ 1) ∨ (rooted = false ∧ out.length ≠ 0)
              then out ++ ['/'] else out) ++ (c :: r.takeWhile notSlash)) dd := rfl

theorem cleanLoopF_slash (fuel : Nat) (r : List Char) (rooted : Bool) (out : List Char)
    (dd : Nat) :
    cleanLoopF (fuel+1) ('/' :: r) rooted out dd = cleanLoopF fuel r rooted out dd := by
  rw [cleanLoopF_cons, if_pos rfl]

theorem cleanLoopF_dot (fuel : Nat) (r : List Char) (rooted : Bool) (out : List Char)
    (dd : Nat) (h : r = [] ∨ r.head? = some '/') :
    cleanLoopF (fuel+1) ('.' :: r) rooted out dd = cleanLoopF fuel r rooted out dd := by
  rw [cleanLoopF_cons, if_neg (by decide : ¬('.' : Char) = '/'), if_pos ⟨rfl, h⟩]

theorem cleanLoopF_dotdot (fuel : Nat) (r2 : List Char) (rooted : Bool) (out : List Char)
    (dd : Nat) (h : r2 = [] ∨ r2.head? = some '/') :
    cleanLoopF (fuel+1) ('.' :: '.' :: r2) rooted out dd =
      cleanLoopF fuel r2 rooted (dotdotCase rooted out dd).1 (dotdotCase rooted out dd).2 := by
  rw [cleanLoopF_cons, if_neg (by decide : ¬('.' : Char) = '/'),
      if_neg (by rintro ⟨-, h1 | h1⟩ <;> simp at h1),
      if_pos ⟨rfl, rfl, by simpa using h⟩]
  rfl

theorem cleanLoopF_default (fuel : Nat) (c : Char) (r : List Char) (rooted : Bool)
    (out : List Char) (dd : Nat) (hc : ¬c = '/')
    (h1 : ¬(c = '.' ∧ (r = [] ∨ r.head? = some '/')))
    (h2 : ¬(c = '.' ∧ r.head? = some '.' ∧ (r.tail = [] ∨ r.tail.head? = some '/'))) :
    cleanLoopF (fuel+1) (c :: r) rooted out dd =
      cleanLoopF fuel (r.dropWhile notSlash) rooted
        ((if (rooted = true ∧ out.length ≠ 1) ∨ (rooted = false ∧ out.length ≠ 0)
            then out ++ ['/'] else out) ++ (c :: r.takeWhile notSlash)) dd := by
  rw [cleanLoopF_cons, if_neg hc, if_neg h1, if_neg h2]

theorem takeWhile_eq_nil_cases {r : List Char} (h : r.takeWhile notSlash = []) :
    r = [] ∨ r.head? = some '/' := by
  cases r with
  | nil => left; rfl
  | cons a t =>
    rw [List.takeWhile_cons] at h
    by_cases ha : notSlash a = true
    · rw [if_pos ha] at h; simp at h
    · right
      have : a = '/' := by simpa [notSlash] using ha
      simp [this]

theorem takeWhile_eq_single {r : List Char} {x : Char} (h : r.takeWhile notSlash = [x]) :
    r.head? = some x ∧ (r.tail = [] ∨ r.tail.head? = some '/') := by
  cases r with
  | nil => simp at h
  | cons a t =>
    rw [List.takeWhile_cons] at h
    by_cases ha : notSlash a = true
    · rw [if_pos ha] at h
      injection h with h1 h2
      subst h1
      exact ⟨rfl, by simpa using takeWhile_eq_nil_cases h2⟩
    · rw [if_neg ha] at h; simp at h

/-! ## The rooted Clean loop is segment-level cleaning -/

theorem cleanLoopF_rooted : ∀ fuel : Nat, ∀ rest : List Char, rest.length ≤ fuel →
    ∀ acc : List (List Char), (∀ s ∈ acc, goodSeg s) →
      cleanLoopF fuel rest true (canon acc) 1 = canon ((segsOf rest).foldl segStep acc) := by
  intro fuel
  induction fuel with
  | zero =>
    intro rest hrest acc hacc
    rw [List.length_eq_zero.mp (Nat.le_zero.mp hrest)]
    simp [cleanLoopF_nil, segsOf_nil]
  | succ fuel ih =>
    intro rest hrest acc hacc
    cases rest with
    | nil => simp [cleanLoopF_nil, segsOf_nil]
    | cons c r =>
      by_cases hc : c = '/'
      · subst hc
        rw [cleanLoopF_slash, segsOf_cons_slash]
        exact ih r (by simpa using hrest) acc hacc
      · by_cases h1 : c = '.' ∧ (r = [] ∨ r.head? = some '/')
        · obtain ⟨hcd, hr⟩ := h1
          subst hcd
          rw [cleanLoopF_dot fuel r true (canon acc) 1 hr]
          have hseg : segsOf ('.' :: r) = ['.'] :: segsOf r := by
            rw [segsOf_cons r (by decide), takeWhile_head_slash hr, dropWhile_head_slash hr]
          rw [hseg, List.foldl_cons, show segStep acc ['.'] = acc from by simp [segStep]]
          exact ih r (by simpa using hrest) acc hacc
        · by_cases h2 : c = '.' ∧ r.head? = some '.' ∧ (r.tail = [] ∨ r.tail.head? = some '/')
          · obtain ⟨hcd, hrh, hrt⟩ := h2
            subst hcd
            cases r with
            | nil => simp at hrh
            | cons c2 r2 =>
              simp only [List.head?_cons, Option.some_inj] at hrh
              subst hrh
              simp only [List.tail_cons] at hrt
              rw [cleanLoopF_dotdot fuel r2 true (canon acc) 1 hrt]
              have hseg : segsOf ('.' :: '.' :: r2) = ['.', '.'] :: segsOf r2 := by
                rw [segsOf_cons _ (by decide), List.takeWhile_cons,
                    if_pos (by decide : notSlash '.' = true), takeWhile_head_slash hrt,
                    List.dropWhile_cons, if_pos (by decide : notSlash '.' = true),
                    dropWhile_head_slash hrt]
              rw [hseg, List.foldl_cons,
                  show segStep acc ['.', '.'] = acc.dropLast from by simp [segStep]]
              by_cases hacc0 : acc = []
              · subst hacc0
                have hdd2 : dotdotCase true (canon []) 1 = (canon [], 1) := by
                  unfold dotdotCase
                  rw [if_neg (by simp [canon_nil]), if_pos rfl]
                rw [hdd2, List.dropLast_nil]
                exact ih r2 (by simp at hrest; omega) [] (by simp)
              · have hlt : 1 < (canon acc).length := canon_length_lt hacc hacc0
                have hdd : dotdotCase true (canon acc) 1 = (canon acc.dropLast, 1) := by
                  obtain ⟨bs, b, hab⟩ : ∃ bs b, acc = bs ++ [b] :=
                    ⟨acc.dropLast, acc.getLast hacc0, (List.dropLast_append_getLast hacc0).symm⟩
                  have hbsgood : ∀ s ∈ bs, goodSeg s := fun s hs =>
                    hacc s (by rw [hab]; exact List.mem_append.mpr (Or.inl hs))
                  have hbgood : goodSeg b := hacc b (by rw [hab]; simp)
                  unfold dotdotCase
                  rw [if_pos hlt]
                  simp only [Prod.mk.injEq]
                  refine ⟨?_, trivial⟩
                  rw [hab]
                  rw [show (bs ++ [b]).dropLast = bs from by simp]
                  exact backtrack_canon hbsgood hbgood
                rw [hdd]
                exact ih r2 (by simp at hrest; omega) acc.dropLast
                  (fun s hs => hacc s (mem_dropLast hs))
          · rw [cleanLoopF_default fuel c r true (canon acc) 1 hc h1 h2]
            have hseg : segsOf (c :: r) = (c :: r.takeWhile notSlash) ::
                segsOf (r.dropWhile notSlash) := segsOf_cons r hc
            have hegood : goodSeg (c :: r.takeWhile notSlash) := by
              refine ⟨by simp, ?_⟩
              intro x hx
              rcases List.mem_cons.mp hx with rfl | hx
              · exact hc
              · exact notSlash_eq_true.mp (List.mem_takeWhile_imp hx)
            have hed : c :: r.takeWhile notSlash ≠ ['.'] := by
              intro hE
              injection hE with hE1 hE2
              exact h1 ⟨hE1, takeWhile_eq_nil_cases hE2⟩
            have hedd : c :: r.takeWhile notSlash ≠ ['.', '.'] := by
              intro hE
              injection hE with hE1 hE2
              obtain ⟨hh, ht⟩ := takeWhile_eq_single hE2
              exact h2 ⟨hE1, hh, ht⟩
            have hout : (if (true = true ∧ (canon acc).length ≠ 1) ∨
                  ((true : Bool) = false ∧ (canon acc).length ≠ 0)
                then canon acc ++ ['/'] else canon acc) ++ (c :: r.takeWhile notSlash) =
                canon (acc ++ [c :: r.takeWhile notSlash]) := by
              rw [canon_append]
              by_cases ha : acc = []
              · subst ha
                rw [if_neg (by simp [canon_nil]), if_pos rfl]
                simp
              · rw [if_pos (Or.inl ⟨rfl, (canon_length_ne_one hacc).mpr ha⟩), if_neg ha]
            rw [hout, hseg, List.foldl_cons,
                show segStep acc (c :: r.takeWhile notSlash) =
                  acc ++ [c :: r.takeWhile notSlash] from by
                    unfold segStep; rw [if_neg hed, if_neg hedd]]
            refine ih (r.dropWhile notSlash)
              (le_trans (dropWhile_length_le r) (by simpa using hrest))
              (acc ++ [c :: r.takeWhile notSlash]) ?_
            intro s hs
            rcases List.mem_append.mp hs with hs | hs
            · exact hacc s hs
            · rcases List.mem_singleton.mp hs with rfl
              exact hegood

/-- Go `path.Clean` on a rooted path: the canonical path on the
segment-level-cleaned segments. -/
theorem clean_rooted (t : List Char) : clean ('/' :: t) = canon (cleanSegs (segsOf t)) := by
  have hstep : clean ('/' :: t) =
      (if cleanLoopF t.length t true ['/'] 1 = [] then ['.']
        else cleanLoopF t.length t true ['/'] 1) := by
    simp [clean]
  have h1 : cleanLoopF t.length t true ['/'] 1 = canon (cleanSegs (segsOf t)) := by
    have h := cleanLoopF_rooted t.length t le_rfl [] (by simp)
    rw [canon_nil] at h
    exact h
  rw [hstep, h1, if_neg (canon_ne_nil _)]

/-! ## The split loop on canonical paths -/

theorem splitLoopFuel_succ (fuel : Nat) (p : List Char) (parts : List (List Char)) :
    splitLoopFuel (fuel+1) p parts =
      if p = ['/'] then some parts
      else splitLoopFuel fuel (splitGo (clean p)).1 (parts ++ [(splitGo (clean p)).2]) := rfl

theorem clean_canon_slash {segs : List (List Char)} (h : ∀ s ∈ segs, plainSeg s) :
    clean (canon segs ++ ['/']) = canon segs := by
  obtain ⟨cs, hcs⟩ := canon_exists_cons segs
  rw [hcs, List.cons_append, clean_rooted]
  have h1 : segsOf (cs ++ ['/']) = segs := by
    have h2 : segsOf (canon segs ++ ['/']) = segs := segsOf_canon_slash (fun s hs => (h s hs).1)
    rw [hcs, List.cons_append, segsOf_cons_slash] at h2
    exact h2
  rw [h1, cleanSegs_plain_eq h, hcs]

theorem loopCanonSlash : ∀ segs : List (List Char), (∀ s ∈ segs, plainSeg s) →
    ∀ parts : List (List Char), ∀ fuel : Nat, segs.length + 1 ≤ fuel →
      splitLoopFuel fuel (canon segs ++ (if segs = [] then [] else ['/'])) parts =
        some (parts ++ segs.reverse) := by
  intro segs
  induction segs using List.reverseRecOn with
  | nil =>
    intro _ parts fuel hf
    obtain ⟨f, rfl⟩ : ∃ f, fuel = f + 1 := ⟨fuel - 1, by omega⟩
    rw [if_pos rfl, canon_nil, splitLoopFuel_succ, if_pos (by simp)]
    simp
  | append_singleton bs b ih =>
    intro h parts fuel hf
    obtain ⟨f, rfl⟩ : ∃ f, fuel = f + 1 := ⟨fuel - 1, by omega⟩
    have hplain : ∀ s ∈ bs, plainSeg s := fun s hs => h s (by simp [hs])
    have hbplain : plainSeg b := h b (by simp)
    have hgood : ∀ s ∈ bs ++ [b], goodSeg s := fun s hs => (h s hs).1
    have hne : bs ++ [b] ≠ [] := by simp
    have hlt : 1 < (canon (bs ++ [b])).length := canon_length_lt hgood hne
    have hinput_ne : canon (bs ++ [b]) ++ ['/'] ≠ ['/'] := by
      intro hE
      have := congrArg List.length hE
      simp only [List.length_append, List.length_cons, List.length_nil] at this
      omega
    have hfb : bs.length + 1 ≤ f := by
      simp only [List.length_append, List.length_cons, List.length_nil] at hf
      omega
    rw [if_neg hne, splitLoopFuel_succ, if_neg hinput_ne, clean_canon_slash h,
        splitGo_canon (fun s hs => (hplain s hs).1) hbplain.1]
    show splitLoopFuel f (canon bs ++ (if bs = [] then [] else ['/'])) (parts ++ [b]) =
      some (parts ++ (bs ++ [b]).reverse)
    rw [ih hplain (parts ++ [b]) f hfb]
    simp

/-! ## The result-building loop -/

theorem buildResult_cons (s : List Char) (rest : List (List Char)) (base : List Char) :
    buildResult (s :: rest) base = (base ++ '/' :: s) :: buildResult rest (base ++ '/' :: s) :=
  rfl

theorem buildResult_length : ∀ segs : List (List Char), ∀ base : List Char,
    (buildResult segs base).length = segs.length := by
  intro segs
  induction segs with
  | nil => intro base; rfl
  | cons s rest ih => intro base; rw [buildResult_cons]; simp [ih]

theorem getLast?_cons_of_ne_nil {α : Type} (a : α) {l : List α} (h : l ≠ []) :
    (a :: l).getLast? = l.getLast? := by
  cases l with
  | nil => exact absurd rfl h
  | cons b t => exact List.getLast?_cons_cons

theorem buildResult_getLast : ∀ segs : List (List Char), ∀ base : List Char, segs ≠ [] →
    (buildResult segs base).getLast? =
      some (base ++ (segs.map (fun s => '/' :: s)).flatten) := by
  intro segs
  induction segs with
  | nil => intro base h; exact absurd rfl h
  | cons s rest ih =>
    intro base _
    by_cases hr : rest = []
    · subst hr
      simp [buildResult]
    · have hbr : buildResult rest (base ++ '/' :: s) ≠ [] := by
        intro hE
        have := congrArg List.length hE
        rw [buildResult_length] at this
        simp at this
        exact hr this
      rw [buildResult_cons, getLast?_cons_of_ne_nil _ hbr, ih (base ++ '/' :: s) hr]
      simp

theorem buildResult_adjacent : ∀ segs : List (List Char), (∀ s ∈ segs, s ≠ []) →
    ∀ base : List Char, ∀ i : Nat, i + 1 < segs.length →
      ((buildResult segs base).getD i [] <+: (buildResult segs base).getD (i+1) []) ∧
      (buildResult segs base).getD i [] ≠ (buildResult segs base).getD (i+1) [] := by
  intro segs
  induction segs with
  | nil => intro _ base i h; simp at h
  | cons s rest ih =>
    intro hne base i hi
    rw [buildResult_cons]
    cases i with
    | zero =>
      cases hr : rest with
      | nil => rw [hr] at hi; simp at hi
      | cons s2 r2 =>
        subst hr
        rw [buildResult_cons]
        simp only [List.getD_cons_zero, List.getD_cons_succ]
        constructor
        · exact ⟨'/' :: s2, rfl⟩
        · intro hE
          have := congrArg List.length hE
          simp only [List.length_append, List.length_cons] at this
          omega
    | succ j =>
      simp only [List.getD_cons_succ]
      exact ih (fun t ht => hne t (by simp [ht])) (base ++ '/' :: s) j
        (by simp only [List.length_cons] at hi; omega)

/-! ## The split loop on a rooted plain path -/

theorem splitLoop_rooted_plain (t : List Char) (hplain : ∀ s ∈ segsOf t, plainSeg s)
    (hne : segsOf t ≠ []) : ∀ fuel : Nat, t.length + 2 ≤ fuel → ∀ parts : List (List Char),
    splitLoopFuel fuel ('/' :: t) parts = some (parts ++ (segsOf t).reverse) := by
  intro fuel hf parts
  obtain ⟨f, rfl⟩ : ∃ f, fuel = f + 1 := ⟨fuel - 1, by omega⟩
  have hpne : ('/' :: t) ≠ ['/'] := by
    intro hE
    injection hE with _ h2
    rw [h2] at hne
    exact hne rfl
  have hclean : clean ('/' :: t) = canon (segsOf t) := by
    rw [clean_rooted, cleanSegs_plain_eq hplain]
  obtain ⟨bs, b, hab⟩ : ∃ bs b, segsOf t = bs ++ [b] :=
    ⟨(segsOf t).dropLast, (segsOf t).getLast hne, (List.dropLast_append_getLast hne).symm⟩
  have hbs : ∀ s ∈ bs, plainSeg s := fun s hs =>
    hplain s (by rw [hab]; exact List.mem_append.mpr (Or.inl hs))
  have hb : plainSeg b := hplain b (by rw [hab]; simp)
  have hfbound : bs.length + 1 ≤ f := by
    have h1 := segsOf_length_le t
    have h2 : (segsOf t).length = bs.length + 1 := by rw [hab]; simp
    omega
  rw [splitLoopFuel_succ, if_neg hpne, hclean, hab,
      splitGo_canon (fun s hs => (hbs s hs).1) hb.1]
  show splitLoopFuel f (canon bs ++ (if bs = [] then [] else ['/'])) (parts ++ [b]) =
    some (parts ++ (bs ++ [b]).reverse)
  rw [loopCanonSlash bs hbs (parts ++ [b]) f hfbound]
  simp

/-- C1 (amended): for every absolute path whose slash-separated segments are
all plain (nonempty, not `.` or `..`) and number k ≥ 1, `splitPaths` returns
exactly k entries, each entry a strict prefix of the next (hence root-first
order), and the last entry is the path with redundant and trailing separators
removed. -/
theorem splitPaths_plain_chain (p : List Char) (hroot : p.head? = some '/')
    (hplain : ∀ s ∈ segsOf p, plainSeg s) (hne : segsOf p ≠ []) :
    ∃ res, splitPaths p = some res ∧
      res.length = (segsOf p).length ∧
      (∀ i, i < res.length - 1 →
        (res.getD i [] <+: res.getD (i+1) []) ∧ res.getD i [] ≠ res.getD (i+1) []) ∧
      res.getLast? = some (sepNormalize p) := by
  cases p with
  | nil => simp at hroot
  | cons c t =>
    have hc : c = '/' := by simpa using hroot
    subst hc
    rw [segsOf_cons_slash] at hplain hne
    refine ⟨buildResult (segsOf t) [], ?_, ?_, ?_, ?_⟩
    · unfold splitPaths
      rw [splitLoop_rooted_plain t hplain hne (('/' :: t).length + 2)
        (by simp only [List.length_cons]; omega) []]
      simp only [Option.map_some', List.nil_append, List.reverse_reverse]
    · rw [buildResult_length, segsOf_cons_slash]
    · intro i hi
      rw [buildResult_length] at hi
      exact buildResult_adjacent (segsOf t) (fun s hs => (hplain s hs).1.1) [] i (by omega)
    · rw [buildResult_getLast (segsOf t) [] hne]
      unfold sepNormalize
      rw [segsOf_cons_slash, canon, if_neg hne]
      simp

/-- Witness for C1 at the scenario path `/aurora/www/prod/frontend`. -/
theorem splitPaths_plain_chain_witness :
    ("/aurora/www/prod/frontend".toList.head? = some '/' ∧
      (∀ s ∈ segsOf "/aurora/www/prod/frontend".toList, plainSeg s) ∧
      segsOf "/aurora/www/prod/frontend".toList ≠ []) ∧
    ∃ res, splitPaths "/aurora/www/prod/frontend".toList = some res ∧
      res.length = (segsOf "/aurora/www/prod/frontend".toList).length ∧
      (∀ i, i < res.length - 1 →
        (res.getD i [] <+: res.getD (i+1) []) ∧ res.getD i [] ≠ res.getD (i+1) []) ∧
      res.getLast? = some (sepNormalize "/aurora/www/prod/frontend".toList) :=
  ⟨⟨by decide, by decide, by decide⟩,
   splitPaths_plain_chain "/aurora/www/prod/frontend".toList
     (by decide) (by decide) (by decide)⟩

/-! ## Divergence of the split loop on relative paths -/

theorem take_head_ne {l : List Char} (k : Nat) (h : l.head? ≠ some '/') :
    (l.take k).head? ≠ some '/' := by
  cases k with
  | zero => simp
  | succ k =>
    cases l with
    | nil => simp
    | cons a t => simpa using h

theorem dotdotCase_false_head {out : List Char} (dd : Nat) (h : out.head? ≠ some '/') :
    (dotdotCase false out dd).1.head? ≠ some '/' := by
  unfold dotdotCase
  by_cases hdd : dd < out.length
  · rw [if_pos hdd]
    exact take_head_ne _ h
  · rw [if_neg hdd, if_neg (by simp)]
    cases out with
    | nil => simp
    | cons a t =>
      show (((a :: t) ++ ['/']) ++ ['.', '.']).head? ≠ some '/'
      simpa using h

theorem cleanLoopF_false_head : ∀ fuel : Nat, ∀ rest out : List Char, ∀ dd : Nat,
    out.head? ≠ some '/' → (cleanLoopF fuel rest false out dd).head? ≠ some '/' := by
  intro fuel
  induction fuel with
  | zero =>
    intro rest out dd h
    exact h
  | succ fuel ih =>
    intro rest out dd h
    cases rest with
    | nil => rw [cleanLoopF_nil]; exact h
    | cons c r =>
      by_cases hc : c = '/'
      · subst hc; rw [cleanLoopF_slash]; exact ih r out dd h
      · by_cases h1 : c = '.' ∧ (r = [] ∨ r.head? = some '/')
        · obtain ⟨hcd, hr⟩ := h1
          subst hcd
          rw [cleanLoopF_dot _ _ _ _ _ hr]
          exact ih r out dd h
        · by_cases h2 : c = '.' ∧ r.head? = some '.' ∧ (r.tail = [] ∨ r.tail.head? = some '/')
          · obtain ⟨hcd, hrh, hrt⟩ := h2
            subst hcd
            cases r with
            | nil => simp at hrh
            | cons c2 r2 =>
              have hc2 : c2 = '.' := by simpa using hrh
              subst hc2
              simp only [List.tail_cons] at hrt
              rw [cleanLoopF_dotdot _ _ _ _ _ hrt]
              exact ih r2 _ _ (dotdotCase_false_head dd h)
          · rw [cleanLoopF_default _ _ _ _ _ _ hc h1 h2]
            apply ih
            cases out with
            | nil =>
              rw [if_neg (by simp)]
              simpa using hc
            | cons a t =>
              rw [if_pos (Or.inr ⟨rfl, by simp⟩)]
              simpa using h

theorem clean_not_rooted_head {p : List Char} (h : p.head? ≠ some '/') :
    (clean p).head? ≠ some '/' := by
  cases p with
  | nil => simp [clean]
  | cons c t =>
    have hc : ¬c = '/' := by simpa using h
    have hstep : clean (c :: t) =
        (if cleanLoopF (c :: t).length (c :: t) false [] 0 = [] then ['.']
          else cleanLoopF (c :: t).length (c :: t) false [] 0) := by
      simp [clean, hc]
    rw [hstep]
    by_cases hres : cleanLoopF (c :: t).length (c :: t) false [] 0 = []
    · rw [if_pos hres]; simp
    · rw [if_neg hres]
      exact cleanLoopF_false_head _ _ _ _ (by simp)

theorem splitLoop_not_rooted : ∀ fuel : Nat, ∀ p parts, p.head? ≠ some '/' →
    splitLoopFuel fuel p parts = none := by
  intro fuel
  induction fuel with
  | zero => intro p parts _; rfl
  | succ fuel ih =>
    intro p parts h
    have hpne : p ≠ ['/'] := by
      intro hE
      rw [hE] at h
      simp at h
    rw [splitLoopFuel_succ, if_neg hpne]
    apply ih
    have hch := clean_not_rooted_head h
    show ((clean p).take
      ((clean p).length - (((clean p).reverse.takeWhile notSlash).reverse).length)).head? ≠
        some '/'
    exact take_head_ne _ hch

/-- C9: the `splitPaths` loop terminates for every input beginning with `'/'`
(within the linear fuel bound supplied by `splitPaths` — each iteration
strictly shortens the remaining path), while for every input not beginning
with `'/'` the loop never terminates: `splitLoopFuel` answers `none` for every
fuel, so absoluteness of the input is a necessary precondition for
`splitPaths` to be total. -/
theorem splitPaths_terminates_iff_absolute (p : List Char) :
    (p.head? = some '/' → (splitPaths p).isSome = true) ∧
    (p.head? ≠ some '/' → splitPaths p = none ∧
      ∀ fuel parts, splitLoopFuel fuel p parts = none) := by
  constructor
  · intro hroot
    cases p with
    | nil => simp at hroot
    | cons c t =>
      have hc : c = '/' := by simpa using hroot
      subst hc
      by_cases hpr : ('/' :: t) = ['/']
      · rw [hpr]
        rfl
      · unfold splitPaths
        cases hcs : cleanSegs (segsOf t) with
        | nil =>
          have hclean : clean ('/' :: t) = ['/'] := by
            rw [clean_rooted, hcs, canon_nil]
          obtain ⟨f, hf⟩ : ∃ f, ('/' :: t).length + 2 = f + 1 + 1 :=
            ⟨('/' :: t).length, by omega⟩
          rw [hf, splitLoopFuel_succ, if_neg hpr, hclean]
          rw [show splitGo ['/'] = (['/'], []) from rfl]
          rw [splitLoopFuel_succ]
          rw [if_pos rfl]
          rfl
        | cons s rest =>
          have hplainCS : ∀ u ∈ cleanSegs (segsOf t), plainSeg u := cleanSegs_plain t
          obtain ⟨bs, b, hab⟩ : ∃ bs b, cleanSegs (segsOf t) = bs ++ [b] := by
            refine ⟨(cleanSegs (segsOf t)).dropLast,
              (cleanSegs (segsOf t)).getLast (by rw [hcs]; simp),
              (List.dropLast_append_getLast (by rw [hcs]; simp)).symm⟩
          have hbs : ∀ u ∈ bs, plainSeg u := fun u hu =>
            hplainCS u (by rw [hab]; exact List.mem_append.mpr (Or.inl hu))
          have hb : plainSeg b := hplainCS b (by rw [hab]; simp)
          have hclean : clean ('/' :: t) = canon (bs ++ [b]) := by
            rw [clean_rooted, hab]
          have hfb : bs.length + 1 ≤ ('/' :: t).length + 1 := by
            have h1 : (cleanSegs (segsOf t)).length ≤ (segsOf t).length :=
              cleanSegs_length_le (segsOf t)
            have h2 := segsOf_length_le t
            have h3 : (cleanSegs (segsOf t)).length = bs.length + 1 := by rw [hab]; simp
            simp only [List.length_cons]
            omega
          obtain ⟨f, hf⟩ : ∃ f, ('/' :: t).length + 2 = f + 1 :=
            ⟨('/' :: t).length + 1, rfl⟩
          rw [hf, splitLoopFuel_succ, if_neg hpr, hclean,
              splitGo_canon (fun u hu => (hbs u hu).1) hb.1]
          have hloop := loopCanonSlash bs hbs ([] ++ [b]) f (by omega)
          show ((splitLoopFuel f (canon bs ++ (if bs = [] then [] else ['/']))
            ([] ++ [b])).map (fun parts => buildResult parts.reverse [])).isSome = true
          rw [hloop]
          rfl
  · intro hnr
    refine ⟨?_, fun fuel parts => splitLoop_not_rooted fuel p parts hnr⟩
    unfold splitPaths
    rw [splitLoop_not_rooted _ p [] hnr]
    rfl

/-- Witness for C9: `/a` (absolute) terminates; `a` (relative) diverges. -/
theorem splitPaths_terminates_iff_absolute_witness :
    (splitPaths "/a".toList).isSome = true ∧ splitPaths "a".toList = none ∧
      splitLoopFuel 5 "a".toList [] = none :=
  ⟨(splitPaths_terminates_iff_absolute "/a".toList).1 (by decide),
   ((splitPaths_terminates_iff_absolute "a".toList).2 (by decide)).1,
   ((splitPaths_terminates_iff_absolute "a".toList).2 (by decide)).2 5 []⟩

/-- C10 (amended): `New` validates only the service argument — construction
succeeds for every role and environment string, including ones containing
`'/'` — and whenever the service is nonempty and role and environment together
contribute at least three nonempty slash-separated segments (e.g. a role with
an interior separator between nonempty names), the derived namespace path has
at least five levels, i.e. strictly more than the usual four: the separators
become extra hierarchy.  Both side conditions are forced: for role `"/"` the
separators contribute no segments at all (see the counterexample), and for an
empty service the final `/` is trailing, so `/aurora/a/b/prod/` stays at four
levels. -/
theorem New_validates_only_service (role environment service : List Char)
    (zookeepers : List (List Char)) (hs : '/' ∉ service) :
    (∃ ss, New role environment service zookeepers = Except.ok ss) ∧
    (∀ ss, New role environment service zookeepers = Except.ok ss →
      3 ≤ (segsOf role).length + (segsOf environment).length → service ≠ [] →
      5 ≤ (segsOf (directoryPath ss)).length) := by
  constructor
  · exact ⟨_, by unfold New; rw [if_neg hs]⟩
  · intro ss hss hcount hsne
    have hss' : ss = ⟨DefaultZKTimeout, role, environment, service, zookeepers⟩ := by
      unfold New at hss
      rw [if_neg hs] at hss
      injection hss with h
      exact h.symm
    subst hss'
    show 5 ≤ (segsOf (BaseZnodePath role environment service)).length
    rw [show BaseZnodePath role environment service =
      ((BaseDirectory ++ '/' :: role) ++ '/' :: environment) ++ '/' :: service from rfl]
    rw [segsOf_append_slash, segsOf_append_slash, segsOf_append_slash,
        (by decide : segsOf BaseDirectory = ["aurora".toList]),
        segsOf_single ⟨hsne, fun c hc hE => hs (hE ▸ hc)⟩]
    simp only [List.length_append, List.length_cons, List.length_nil]
    omega

/-- Witness for C10 with role `a/b` (an interior separator). -/
theorem New_validates_only_service_witness :
    (∃ ss, New "a/b".toList "prod".toList "frontend".toList [] = Except.ok ss) ∧
    5 ≤ (segsOf (directoryPath ⟨DefaultZKTimeout, "a/b".toList, "prod".toList,
      "frontend".toList, []⟩)).length :=
  ⟨(New_validates_only_service "a/b".toList "prod".toList "frontend".toList []
      (by decide)).1,
   (New_validates_only_service "a/b".toList "prod".toList "frontend".toList []
      (by decide)).2
     ⟨DefaultZKTimeout, "a/b".toList, "prod".toList, "frontend".toList, []⟩ rfl
     (by decide) (by decide)⟩

/-- C10 counterexample: role `"/"` contains a separator and construction
succeeds, but the derived path `/aurora///prod/frontend` has only three
hierarchy levels — fewer than the usual four, not extra ones: a separator in
the role does not always create extra hierarchy levels. -/
theorem New_slash_role_counterexample :
    ∃ ss, New "/".toList "prod".toList "frontend".toList [] = Except.ok ss ∧
      directoryPath ss = "/aurora///prod/frontend".toList ∧
      (segsOf (directoryPath ss)).length = 3 :=
  ⟨_, rfl, by decide, by decide⟩
